import Mathlib

/-!
Verification of the charon-key key-resolution pipeline.

Go strings are modelled as lists of characters (`Str`); each definition below
is a direct translation of the corresponding Go function, named after it.
Sources:
  internal/github/fetcher.go   (isValidKeyFormat, parseKeys, FetchKeys)
  internal/ssh/authorized_keys.go (normalizeKey, MergeKeys, FormatKeys,
                                   ReadExistingKeys, GetAllKeys)
  internal/resolver/resolver.go (resolveKeysForGitHubUser, ResolveKeys, joinErrors)
  internal/config (ParseUserMap, GetGitHubUsers)
  internal/cache (Manager.Read)
  cmd/charon-key/main.go       (validation loop before output)
-/

abbrev Str := List Char

deriving instance DecidableEq for Except

/-- Whitespace recognised by Go's strings.TrimSpace (unicode.IsSpace):
tab, newline, vertical tab, form feed, carriage return, space, NEL, NBSP. -/
def goIsSpace (c : Char) : Bool :=
  c = ' ' || c = '\t' || c = '\n' || c = Char.ofNat 11 || c = Char.ofNat 12 ||
  c = '\r' || c = Char.ofNat 133 || c = Char.ofNat 160

/-- Left trim: drop leading whitespace. -/
def trimL (s : Str) : Str := s.dropWhile goIsSpace

/-- Right trim: drop trailing whitespace. -/
def trimR (s : Str) : Str := (s.reverse.dropWhile goIsSpace).reverse

/-- Go strings.TrimSpace. -/
def trimStr (s : Str) : Str := trimR (trimL s)

/-- Go strings.Split with a one-character separator: always returns at least
one (possibly empty) piece; n separators give n+1 pieces. -/
def splitOnChar (c : Char) : Str → List Str
  | [] => [[]]
  | x :: xs =>
    if x = c then [] :: splitOnChar c xs
    else
      match splitOnChar c xs with
      | [] => [[x]]
      | y :: ys => (x :: y) :: ys

/-- Helper for fields: accumulates the current word (reversed). -/
def fieldsAux (cur : Str) : Str → List Str
  | [] => if cur.isEmpty then [] else [cur.reverse]
  | c :: cs =>
    if goIsSpace c then
      if cur.isEmpty then fieldsAux [] cs else cur.reverse :: fieldsAux [] cs
    else fieldsAux (c :: cur) cs

/-- Go strings.Fields: split around runs of whitespace, no empty words. -/
def fields (s : Str) : List Str := fieldsAux [] s

/-- Go strings.Join with a one-character separator. -/
def joinChar (c : Char) : List Str → Str
  | [] => []
  | [x] => x
  | x :: xs => x ++ c :: joinChar c xs

/-- The canonical SSH key-algorithm identifiers, as listed in
isValidKeyFormat (fetcher.go and main.go share the same list). -/
def validKeyPrefixes : List Str :=
  ["ssh-rsa".data, "ssh-ed25519".data, "ecdsa-sha2-nistp256".data,
   "ecdsa-sha2-nistp384".data, "ecdsa-sha2-nistp521".data, "ssh-dss".data]

/-- isValidKeyFormat (fetcher.go lines 208-231, duplicated in main.go):
trim, reject empty, accept iff the line STARTS WITH one of the canonical
identifiers (strings.HasPrefix, not a whole-token comparison). -/
def isValidKeyFormat (key : Str) : Bool :=
  let k := trimStr key
  if k.isEmpty then false
  else validKeyPrefixes.any (fun p => p.isPrefixOf k)

/-- The first whitespace-separated token of a (trimmed) line; [] if none. -/
def leadingToken (l : Str) : Str := (fields (trimStr l)).headD []

/-- normalizeKey (authorized_keys.go lines 129-144): trim; empty stays empty;
fewer than two fields returns the trimmed line unchanged; otherwise the first
two fields joined by one space. -/
def normalizeKey (key : Str) : Str :=
  let k := trimStr key
  if k.isEmpty then []
  else
    match fields k with
    | p0 :: p1 :: _ => p0 ++ ' ' :: p1
    | _ => k

/-- One step of the MergeKeys loop body (authorized_keys.go lines 98-122):
state is (normalized keys seen, surviving lines in order). -/
def mergeStep (acc : List Str × List Str) (key : Str) : List Str × List Str :=
  let k := trimStr key
  if k.isEmpty then acc
  else
    let n := normalizeKey k
    if n.isEmpty || acc.1.contains n then acc
    else (acc.1 ++ [n], acc.2 ++ [k])

/-- MergeKeys (authorized_keys.go lines 92-125): fold the existing (local)
entries first, then the GitHub (resolved) keys, deduplicating by normalizeKey.
The Go map keyMap is modelled by the list of seen normalized keys. -/
def mergeKeys (githubKeys existingKeys : List Str) : List Str :=
  ((githubKeys.foldl mergeStep (existingKeys.foldl mergeStep ([], []))).2)

/-- FormatKeys (authorized_keys.go lines 147-152): empty list gives the empty
string; otherwise join by single newlines plus one trailing newline. -/
def formatKeys (keys : List Str) : Str :=
  if keys.isEmpty then [] else joinChar '\n' keys ++ ['\n']

/-- ReadExistingKeys line filtering (authorized_keys.go lines 74-81):
trim each line, drop blanks and lines starting with a # comment marker. -/
def readExistingKeys (lines : List Str) : List Str :=
  (lines.map trimStr).filter (fun l => !(l.isEmpty || "#".data.isPrefixOf l))

/-- The fail-secure tail of main (main.go lines 98-126): validate every
resolved key with isValidKeyFormat; on any failure HandleInvalidKey aborts
the process before anything is printed (modelled as none); otherwise emit
GetAllKeys = FormatKeys (MergeKeys resolved (ReadExistingKeys fileLines)). -/
def mainEmit (githubKeys fileLines : List Str) : Option Str :=
  if githubKeys.all isValidKeyFormat then
    some (formatKeys (mergeKeys githubKeys (readExistingKeys fileLines)))
  else none

/-- Error produced by parseKeys when a non-empty response held no usable key
("no valid SSH keys found in response (%d invalid lines)"). -/
inductive ParseErr where
  | noValidKeys (invalidCount : Nat)
deriving DecidableEq, Repr

/-- The scanner loop of parseKeys (fetcher.go lines 177-191): accumulates kept
lines and the count of non-blank lines that failed isValidKeyFormat. -/
def parseKeysLoop : List Str → List Str → Nat → List Str × Nat
  | [], keys, inv => (keys, inv)
  | l :: ls, keys, inv =>
    let line := trimStr l
    if line.isEmpty then parseKeysLoop ls keys inv
    else if isValidKeyFormat line then parseKeysLoop ls (keys ++ [line]) inv
    else parseKeysLoop ls keys (inv + 1)

/-- parseKeys (fetcher.go lines 172-204). The bufio scanner's line splitting is
modelled by splitting the body on newline characters; the scanner emits no
trailing empty token after a final newline, but that token is blank and is
dropped by the loop itself, so the two agree on the result. -/
def parseKeys (body : Str) : Except ParseErr (List Str) :=
  let r := parseKeysLoop (splitOnChar '\n' body) [] 0
  if r.1.isEmpty && r.2 > 0 then .error (.noValidKeys r.2) else .ok r.1

/-- The outcome of one HTTP round trip, as fetchKeysOnce distinguishes them:
a 200 response with a body, a non-200 status, or a transport failure
(client.Do error / timeout). -/
inductive Response where
  | ok (body : Str)
  | status (code : Nat)
  | netFail
deriving DecidableEq

/-- The error of a single fetchKeysOnce call (fetcher.go lines 138-169):
an HTTPError carrying the status code, a transport error, or a body whose
parse failed. Only the http case is an *HTTPError in Go; the other two are
plain wrapped errors. -/
inductive OnceErr where
  | http (code : Nat)
  | net
  | parse (e : ParseErr)
deriving DecidableEq

/-- fetchKeysOnce (fetcher.go lines 138-169). -/
def fetchKeysOnce (r : Response) : Except OnceErr (List Str) :=
  match r with
  | .netFail => .error .net
  | .status code => .error (.http code)
  | .ok body =>
    match parseKeys body with
    | .ok keys => .ok keys
    | .error e => .error (.parse e)

/-- MaxRetries (fetcher.go line 18): additional attempts after the first. -/
def MaxRetries : Nat := 3

/-- The error FetchKeys returns to its caller. terminal is the
return nil, lastErr path (404 excluded; 4xx, or 5xx on the final attempt);
exhausted is the wrapped failed-after-N-attempts error whose cause is the
last error seen. -/
inductive FetchErr where
  | emptyUsername
  | userNotFound
  | terminal (e : OnceErr)
  | exhausted (e : OnceErr)
deriving DecidableEq

/-- Observable behaviour of one FetchKeys call: its result, how many times
fetchKeysOnce ran, and the sleep durations taken before retries, recorded as
multiples of RetryDelay (the code sleeps RetryDelay * attempt). -/
structure FetchTrace where
  result : Except FetchErr (List Str)
  attempts : Nat
  delays : List Nat
deriving DecidableEq

/-- The retry loop of FetchKeys (fetcher.go lines 83-134). fuel bounds the
iteration count exactly as the loop condition attempt <= MaxRetries does;
called with fuel = MaxRetries + 1 - attempt the fuel-0 branch is unreachable.
done counts completed fetchKeysOnce calls. -/
def fetchAux (resp : Nat → Response) : Nat → Nat → Nat → List Nat → FetchTrace
  | 0, _, done, delays => ⟨.error (.exhausted .net), done, delays⟩
  | fuel + 1, attempt, done, delays =>
    let delays := if attempt > 0 then delays ++ [attempt] else delays
    match fetchKeysOnce (resp attempt) with
    | .ok keys => ⟨.ok keys, done + 1, delays⟩
    | .error (.http code) =>
      if code = 404 then ⟨.error .userNotFound, done + 1, delays⟩
      else if 500 ≤ code ∧ attempt < MaxRetries then
        fetchAux resp fuel (attempt + 1) (done + 1) delays
      else ⟨.error (.terminal (.http code)), done + 1, delays⟩
    | .error .net =>
      if attempt < MaxRetries then fetchAux resp fuel (attempt + 1) (done + 1) delays
      else ⟨.error (.exhausted .net), done + 1, delays⟩
    | .error (.parse e) =>
      if attempt < MaxRetries then fetchAux resp fuel (attempt + 1) (done + 1) delays
      else ⟨.error (.exhausted (.parse e)), done + 1, delays⟩

/-- FetchKeys (fetcher.go lines 72-135), with the responses the server would
give to each attempt supplied as an oracle. -/
def fetchKeys (username : Str) (resp : Nat → Response) : FetchTrace :=
  if username.isEmpty then ⟨.error .emptyUsername, 0, []⟩
  else fetchAux resp (MaxRetries + 1) 0 0 []

/-- The configuration errors ParseUserMap distinguishes (config.go 32-72). -/
inductive ConfigErr where
  | emptyInput
  | badPairFormat (pair : Str)
  | emptySSHUser (pair : Str)
  | emptyGitHubUser (pair : Str)
  | noValidMappings
deriving DecidableEq

/-- result[sshUser] = append(result[sshUser], githubUser) on a Go map,
modelled as an association list keyed in first-appearance order. -/
def insertAppend (m : List (Str × List Str)) (k v : Str) : List (Str × List Str) :=
  if m.any (fun p => p.1 = k) then
    m.map (fun p => if p.1 = k then (p.1, p.2 ++ [v]) else p)
  else m ++ [(k, [v])]

/-- The per-pair loop of ParseUserMap (config.go lines 41-65). -/
def parsePairs : List Str → List (Str × List Str) → Except ConfigErr (List (Str × List Str))
  | [], m => .ok m
  | p :: ps, m =>
    let t := trimStr p
    if t.isEmpty then parsePairs ps m
    else
      match splitOnChar ':' t with
      | [a, b] =>
        let sshUser := trimStr a
        let ghUser := trimStr b
        if sshUser.isEmpty then .error (.emptySSHUser t)
        else if ghUser.isEmpty then .error (.emptyGitHubUser t)
        else parsePairs ps (insertAppend m sshUser ghUser)
      | _ => .error (.badPairFormat t)

/-- ParseUserMap (config.go lines 32-72). -/
def parseUserMap (s : Str) : Except ConfigErr (List (Str × List Str)) :=
  if s.isEmpty then .error .emptyInput
  else
    match parsePairs (splitOnChar ',' s) [] with
    | .error e => .error e
    | .ok m => if m.isEmpty then .error .noValidMappings else .ok m

/-- Association-list lookup standing in for Go map indexing. -/
def mapLookup (m : List (Str × List Str)) (k : Str) : Option (List Str) :=
  (m.find? (fun p => p.1 = k)).map (fun p => p.2)

/-- GetGitHubUsers (config.go lines 89-101): exact match first, then the
wildcard entry, then the empty list. -/
def getGitHubUsers (m : List (Str × List Str)) (sshUsername : Str) : List Str :=
  match mapLookup m sshUsername with
  | some users => users
  | none =>
    match mapLookup m "*".data with
    | some users => users
    | none => []

/-- State of the persisted cache record backing one identity, as
Manager.Read can encounter it: no file, a file that does not unmarshal,
or an unmarshalled Cache value (cache.go lines 11-21). -/
structure CacheEntry where
  gitHubUser : Str
  keys : List Str
  timestamp : Nat
deriving DecidableEq

inductive CacheFile where
  | missing
  | corrupt
  | content (entries : List CacheEntry)
deriving DecidableEq

/-- Manager.Read (cache.go lines 118-149). Go returns (keys, isExpired, err);
the err /= nil outcomes are the .error cases, a miss is .ok ([], false).
now and ttl are in the same time unit as the stored timestamps. -/
def cacheRead (file : CacheFile) (githubUser : Str) (now ttl : Nat) :
    Except Str (List Str × Bool) :=
  if githubUser.isEmpty then .error "GitHub username cannot be empty".data
  else
    match file with
    | .missing => .ok ([], false)
    | .corrupt => .error "failed to unmarshal cache".data
    | .content entries =>
      match entries.find? (fun e => e.gitHubUser = githubUser) with
      | some e => .ok (e.keys, ttl < now - e.timestamp)
      | none => .ok ([], false)

/-- What the resolver observes about one GitHub user: the keys and expiry
flag that cache.Read handed back (on a Read error Go leaves cachedKeys nil,
so that case is cacheKeys = []), and the outcome of fetcher.FetchKeys. -/
structure UserEnv where
  cacheKeys : List Str
  cacheExpired : Bool
  fetch : Except Str (List Str)

/-- resolveKeysForGitHubUser (resolver.go lines 74-106): fresh non-empty
cache short-circuits; otherwise fetch; on fetch failure a non-empty (possibly
expired) cache entry is served as offline fallback; a cache write failure is
ignored. -/
def resolveKeysForGitHubUser (e : UserEnv) : Except Str (List Str) :=
  if !e.cacheKeys.isEmpty && !e.cacheExpired then .ok e.cacheKeys
  else
    match e.fetch with
    | .ok keys => .ok keys
    | .error err =>
      if !e.cacheKeys.isEmpty then .ok e.cacheKeys
      else .error ("failed to fetch keys from GitHub and no cache available: ".data ++ err)

/-- for key := range keys { allKeys[key] = true } — membership in the Go set
map, modelled as first-seen-ordered insertion into a duplicate-free list.
(The Go map iterates in unspecified order; the element set is identical.) -/
def insertDedup (acc : List Str) (keys : List Str) : List Str :=
  keys.foldl (fun a k => if k ∈ a then a else a ++ [k]) acc

/-- The per-user loop body of ResolveKeys (resolver.go lines 44-55): a failure
appends "user: err" to the error list and continues, a success merges the keys
into the deduplicated union. -/
def resolveStep (env : Str → UserEnv) (acc : List Str × List Str) (u : Str) :
    List Str × List Str :=
  match resolveKeysForGitHubUser (env u) with
  | .ok keys => (insertDedup acc.1 keys, acc.2)
  | .error e => (acc.1, acc.2 ++ [u ++ ": ".data ++ e])

/-- The whole per-user loop of ResolveKeys: (deduplicated keys, errors). -/
def resolveAll (env : Str → UserEnv) (users : List Str) : List Str × List Str :=
  users.foldl (resolveStep env) ([], [])

/-- joinErrors (resolver.go lines 118-130). -/
def joinErrors : List Str → Str
  | [] => []
  | e :: es => es.foldl (fun acc x => acc ++ "; ".data ++ x) e

/-- ResolveKeys (resolver.go lines 29-70). -/
def resolveKeys (userMap : List (Str × List Str)) (env : Str → UserEnv)
    (sshUsername : Str) : Except Str (List Str) :=
  if sshUsername.isEmpty then .error "SSH username cannot be empty".data
  else
    let githubUsers := getGitHubUsers userMap sshUsername
    if githubUsers.isEmpty then .error "no GitHub users mapped".data
    else
      let r := resolveAll env githubUsers
      if r.1.isEmpty && r.2.length = githubUsers.length then
        .error ("failed to resolve keys for all GitHub users: ".data ++ joinErrors r.2)
      else .ok r.1

/-- Spec-side helper for the amended C8 claim: a comma segment that triggers a
ConfigError — non-blank after trimming and either not exactly one colon or an
empty side. Blank segments are skipped by the parser, never errors. -/
def segBad (p : Str) : Bool :=
  let t := trimStr p
  if t.isEmpty then false
  else
    match splitOnChar ':' t with
    | [a, b] => (trimStr a).isEmpty || (trimStr b).isEmpty
    | _ => true

/-- The non-blank trimmed lines of a response body. -/
def nonBlankLines (body : Str) : List Str :=
  ((splitOnChar '\n' body).map trimStr).filter (fun l => !l.isEmpty)

/-- Spec-side restatement of the amended C5 claim: keep exactly the non-blank
lines accepted by isValidKeyFormat; fail only when nothing was kept although
at least one non-blank line was present. -/
def parseKeysSpec (body : Str) : Except ParseErr (List Str) :=
  let nb := nonBlankLines body
  let kept := nb.filter isValidKeyFormat
  if kept.isEmpty && !nb.isEmpty then
    .error (.noValidKeys (nb.filter (fun l => !isValidKeyFormat l)).length)
  else .ok kept

/-- Whether resolution fails for one GitHub user (helper for statements). -/
def resolveFails (env : Str → UserEnv) (u : Str) : Bool :=
  match resolveKeysForGitHubUser (env u) with
  | .error _ => true
  | .ok _ => false

/-- Environment in which every identity fails (empty cache, failing fetch). -/
def envAllFail : Str → UserEnv := fun _ => ⟨[], false, .error "boom".data⟩

/-- Environment for the C3 witness: identity x1 has a stale cache entry and a
failing fetch; identity x2 has no cache entry and a failing fetch. -/
def envC3 : Str → UserEnv := fun u =>
  if u = "x1".data then ⟨["ssh-rsa AAA cached@h".data], true, .error "boom".data⟩
  else ⟨[], false, .error "boom".data⟩

/-- Two key lines sharing algorithm and blob, differing only in comment. -/
def keyLineA : Str := "ssh-rsa AAA a@h".data

def keyLineB : Str := "ssh-rsa AAA b@h".data

/-- Environment for C9: two identities whose (fresh) cached key lists hold the
same key up to comment. -/
def env9 : Str → UserEnv := fun u =>
  if u = "u1".data then ⟨[keyLineA], false, .error []⟩
  else ⟨[keyLineB], false, .error []⟩

/-- Responses whose bodies are 200s that parse to no usable key. -/
def respParseFail : Nat → Response := fun _ => .ok "not-a-key garbage".data

/-- Responses that always 404. -/
def resp404 : Nat → Response := fun _ => .status 404

/-! ## General lemmas about the string primitives -/

theorem dropWhile_idem (p : Char → Bool) (l : Str) :
    List.dropWhile p (List.dropWhile p l) = List.dropWhile p l := by
  induction l with
  | nil => rfl
  | cons x xs ih =>
    by_cases h : p x
    · simp [List.dropWhile_cons, h, ih]
    · simp [List.dropWhile_cons, h]

theorem trimL_trimL (s : Str) : trimL (trimL s) = trimL s :=
  dropWhile_idem goIsSpace s

theorem trimR_trimR (s : Str) : trimR (trimR s) = trimR s := by
  unfold trimR
  rw [List.reverse_reverse, dropWhile_idem]

theorem trimL_prefix_stable (t u : Str) (ht : trimL t = t) (hu : u <+: t) :
    trimL u = u := by
  cases u with
  | nil => rfl
  | cons a us =>
    cases t with
    | nil => simp at hu
    | cons b ts =>
      obtain ⟨r, hr⟩ := hu
      have hab : a = b := by
        have := congrArg (fun l => l.head?) hr
        simpa using this
      subst hab
      have hb : ¬ goIsSpace a := by
        intro h
        have heq : trimL (a :: ts) = trimL ts := by simp [trimL, List.dropWhile_cons, h]
        rw [ht] at heq
        have hlen := congrArg List.length heq
        have hle : (List.dropWhile goIsSpace ts).length ≤ ts.length :=
          (List.dropWhile_suffix goIsSpace).length_le
        simp [trimL] at hlen
        omega
      simp [trimL, List.dropWhile_cons, hb]

theorem trimR_prefix_self (s : Str) : trimR s <+: s := by
  unfold trimR
  obtain ⟨t, ht⟩ : List.dropWhile goIsSpace s.reverse <:+ s.reverse :=
    List.dropWhile_suffix goIsSpace
  refine ⟨t.reverse, ?_⟩
  have h2 := congrArg List.reverse ht
  simpa using h2

theorem trimL_trimStr (s : Str) : trimL (trimStr s) = trimStr s := by
  unfold trimStr
  exact trimL_prefix_stable (trimL s) _ (trimL_trimL s) (trimR_prefix_self (trimL s))

theorem trimStr_idem (s : Str) : trimStr (trimStr s) = trimStr s := by
  conv_lhs => rw [trimStr, trimL_trimStr]
  rw [trimStr, trimR_trimR]

/-! ## C5: parseKeys characterization -/

theorem parseKeysLoop_eq (ls : List Str) (keys : List Str) (inv : Nat) :
    parseKeysLoop ls keys inv =
      (keys ++ ((ls.map trimStr).filter (fun l => !l.isEmpty)).filter isValidKeyFormat,
       inv + (((ls.map trimStr).filter (fun l => !l.isEmpty)).filter
                (fun l => !isValidKeyFormat l)).length) := by
  induction ls generalizing keys inv with
  | nil => simp [parseKeysLoop]
  | cons l ls ih =>
    by_cases h1 : (trimStr l).isEmpty
    · simp [parseKeysLoop, h1, ih]
    · by_cases h2 : isValidKeyFormat (trimStr l)
      · simp [parseKeysLoop, h1, h2, ih]
      · simp [parseKeysLoop, h1, h2, ih]
        omega

/-- C5 (amended). parseKeys splits the body on newlines, trims whitespace and
drops blank lines; it keeps exactly the lines that START WITH one of the
canonical algorithm identifiers (a string-prefix test via isValidKeyFormat,
not a leading-token comparison); the other non-blank lines are silently
dropped with no error, unless nothing was kept while at least one non-blank
line was present, in which case a parse failure carrying the dropped-line
count is returned. -/
theorem parseKeys_eq_spec (body : Str) : parseKeys body = parseKeysSpec body := by
  unfold parseKeys parseKeysSpec
  rw [parseKeysLoop_eq]
  simp only [List.nil_append, Nat.zero_add, nonBlankLines]
  set nb := ((splitOnChar '\n' body).map trimStr).filter (fun l => !l.isEmpty) with hnbdef
  by_cases hk : nb.filter isValidKeyFormat = []
  · have hall : ∀ a ∈ nb, ¬ isValidKeyFormat a := List.filter_eq_nil_iff.mp hk
    have hnot : nb.filter (fun l => !isValidKeyFormat l) = nb := by
      rw [List.filter_eq_self]
      intro a ha
      simpa using hall a ha
    rw [hk, hnot]
    by_cases hnb : nb = []
    · rw [hnb]
      simp
    · have h1 : 0 < nb.length := List.length_pos.mpr hnb
      have h2 : nb.isEmpty = false := by
        cases hn2 : nb.isEmpty
        · rfl
        · exact absurd (List.isEmpty_iff.mp hn2) hnb
      simp [h1, h2]
  · have hkB : (nb.filter isValidKeyFormat).isEmpty = false := by
      cases hn2 : (nb.filter isValidKeyFormat).isEmpty
      · rfl
      · exact absurd (List.isEmpty_iff.mp hn2) hk
    simp [hkB]

/-- C5 counterexample to the claim as stated: this line's leading token is
not a canonical identifier, yet parseKeys keeps it (prefix match), so the
keep-filter is not leading-token equality. -/
theorem parseKeys_leadingToken_cex :
    parseKeys "ssh-rsax blah".data = .ok ["ssh-rsax blah".data] ∧
    leadingToken "ssh-rsax blah".data ∉ validKeyPrefixes := by decide

/-! ## C1: fail-secure validation before output -/

/-- C1 (amended). If any resolved key line fails isValidKeyFormat — it does
not start with a canonical algorithm identifier — the process aborts before
emitting anything (mainEmit = none), even if every other line is valid. -/
theorem mainEmit_failSecure (githubKeys fileLines : List Str)
    (h : ∃ k ∈ githubKeys, isValidKeyFormat k = false) :
    mainEmit githubKeys fileLines = none := by
  obtain ⟨k, hk, hv⟩ := h
  unfold mainEmit
  have hall : githubKeys.all isValidKeyFormat = false := by
    by_contra hc
    have : githubKeys.all isValidKeyFormat = true := by
      cases hb : githubKeys.all isValidKeyFormat
      · exact absurd hb hc
      · rfl
    exact absurd (List.all_eq_true.mp this k hk) (by simp [hv])
  simp [hall]

/-- C1 witness: the spec's own fail-secure example — one valid line plus
"not-a-key garbage" — aborts with no output. -/
theorem mainEmit_failSecure_witness :
    mainEmit ["ssh-rsa AAA x@h".data, "not-a-key garbage".data] [] = none :=
  mainEmit_failSecure _ _ ⟨"not-a-key garbage".data, by decide, by decide⟩

/-- C1 counterexample to the claim as stated: a resolved line whose leading
token is NOT one of the canonical identifiers, but which begins with one as a
string prefix, does not trigger the abort — output is still produced. -/
theorem mainEmit_leadingToken_cex :
    leadingToken "ssh-rsax AAAA".data ∉ validKeyPrefixes ∧
    mainEmit ["ssh-rsax AAAA".data] [] ≠ none := by decide

/-! ## C7: cache reads on corrupt records -/

/-- C7 (amended). Manager.Read raises a corrupt (non-deserializable) record as
a hard read error — it is NOT degraded to a miss; only a missing file is
reported as a miss (.ok ([], false)). -/
theorem cacheRead_corrupt_vs_missing (githubUser : Str) (hu : githubUser ≠ [])
    (now ttl : Nat) :
    cacheRead .corrupt githubUser now ttl = .error "failed to unmarshal cache".data ∧
    cacheRead .missing githubUser now ttl = .ok ([], false) := by
  have hb : githubUser.isEmpty = false := by
    cases h : githubUser.isEmpty
    · rfl
    · exact absurd (List.isEmpty_iff.mp h) hu
  constructor <;> simp [cacheRead, hb]

/-- C7 witness: concrete corrupt/missing reads for user alice. -/
theorem cacheRead_corrupt_vs_missing_witness :
    cacheRead .corrupt "alice".data 5 10 = .error "failed to unmarshal cache".data ∧
    cacheRead .missing "alice".data 5 10 = .ok ([], false) :=
  cacheRead_corrupt_vs_missing "alice".data (by decide) 5 10

/-- C7 counterexample: a corrupt record does not read as a cache miss — the
read returns an error, not the miss value. -/
theorem cacheRead_corrupt_cex :
    cacheRead .corrupt "bob".data 5 10 = .error "failed to unmarshal cache".data ∧
    cacheRead .corrupt "bob".data 5 10 ≠ .ok ([], false) := by decide

/-! ## C8: ParseUserMap grammar -/

theorem insertAppend_ne_nil (m : List (Str × List Str)) (k v : Str) :
    insertAppend m k v ≠ [] := by
  unfold insertAppend
  by_cases h : m.any (fun p => p.1 = k)
  · rw [if_pos h]
    intro hc
    have := congrArg List.length hc
    simp at this
    rw [this] at h
    simp [List.any_nil] at h
  · rw [if_neg h]
    simp

theorem parsePairs_error_iff (ps : List Str) (m : List (Str × List Str)) :
    (∃ e, parsePairs ps m = .error e) ↔ ∃ p ∈ ps, segBad p = true := by
  induction ps generalizing m with
  | nil => simp [parsePairs]
  | cons q ps ih =>
    by_cases hq : (trimStr q).isEmpty
    · have hbad : segBad q = false := by simp [segBad, hq]
      simp only [parsePairs, hq, if_pos]
      rw [ih]
      constructor
      · intro h
        exact ⟨h.choose, by simp [h.choose_spec.1], h.choose_spec.2⟩
      · rintro ⟨p, hp, hpb⟩
        rcases List.mem_cons.mp hp with h1 | h1
        · rw [h1] at hpb
          rw [hpb] at hbad
          exact absurd hbad (by simp)
        · exact ⟨p, h1, hpb⟩
    · cases hsp : splitOnChar ':' (trimStr q) with
      | nil =>
        have hbad : segBad q = true := by simp [segBad, hq, hsp]
        simp [parsePairs, hq, hsp]
        exact Or.inl hbad
      | cons a rest =>
        cases rest with
        | nil =>
          have hbad : segBad q = true := by simp [segBad, hq, hsp]
          simp [parsePairs, hq, hsp]
          exact Or.inl hbad
        | cons b rest2 =>
          cases rest2 with
          | nil =>
            by_cases ha : (trimStr a).isEmpty
            · have hbad : segBad q = true := by simp [segBad, hq, hsp, ha]
              simp [parsePairs, hq, hsp, ha]
              exact Or.inl hbad
            · by_cases hb : (trimStr b).isEmpty
              · have hbad : segBad q = true := by simp [segBad, hq, hsp, ha, hb]
                simp [parsePairs, hq, hsp, ha, hb]
                exact Or.inl hbad
              · have hbad : segBad q = false := by simp [segBad, hq, hsp, ha, hb]
                simp only [parsePairs, hq, hsp, ha, hb, if_neg, Bool.false_eq_true,
                  not_false_eq_true]
                rw [ih]
                constructor
                · rintro ⟨p, hp, hpb⟩
                  exact ⟨p, by simp [hp], hpb⟩
                · rintro ⟨p, hp, hpb⟩
                  rcases List.mem_cons.mp hp with h1 | h1
                  · rw [h1] at hpb
                    rw [hpb] at hbad
                    exact absurd hbad (by simp)
                  · exact ⟨p, h1, hpb⟩
          | cons c rest3 =>
            have hbad : segBad q = true := by simp [segBad, hq, hsp]
            simp [parsePairs, hq, hsp]
            exact Or.inl hbad

theorem parsePairs_ok_empty_iff (ps : List Str) (m m' : List (Str × List Str))
    (h : parsePairs ps m = .ok m') :
    m' = [] ↔ (m = [] ∧ ∀ p ∈ ps, trimStr p = []) := by
  induction ps generalizing m with
  | nil =>
    simp only [parsePairs] at h
    cases h
    simp
  | cons q ps ih =>
    by_cases hq : (trimStr q).isEmpty
    · simp only [parsePairs, hq, if_pos] at h
      rw [ih m h]
      have hqe : trimStr q = [] := List.isEmpty_iff.mp hq
      constructor
      · rintro ⟨h1, h2⟩
        refine ⟨h1, ?_⟩
        intro p hp
        rcases List.mem_cons.mp hp with h3 | h3
        · rw [h3, hqe]
        · exact h2 p h3
      · rintro ⟨h1, h2⟩
        exact ⟨h1, fun p hp => h2 p (List.mem_cons_of_mem q hp)⟩
    · have hqe : trimStr q ≠ [] := fun hc => by
        rw [hc] at hq
        exact hq (by simp)
      cases hsp : splitOnChar ':' (trimStr q) with
      | nil => simp [parsePairs, hq, hsp] at h
      | cons a rest =>
        cases rest with
        | nil => simp [parsePairs, hq, hsp] at h
        | cons b rest2 =>
          cases rest2 with
          | nil =>
            by_cases ha : (trimStr a).isEmpty
            · simp [parsePairs, hq, hsp, ha] at h
            · by_cases hb : (trimStr b).isEmpty
              · simp [parsePairs, hq, hsp, ha, hb] at h
              · simp only [parsePairs, hq, hsp, ha, hb, if_neg, Bool.false_eq_true,
                  not_false_eq_true] at h
                rw [ih _ h]
                constructor
                · rintro ⟨h1, _⟩
                  exact absurd h1 (insertAppend_ne_nil m (trimStr a) (trimStr b))
                · rintro ⟨_, h2⟩
                  exact absurd (h2 q (List.mem_cons_self q ps)) hqe
          | cons c rest3 => simp [parsePairs, hq, hsp] at h

/-- C8 (amended). ParseUserMap accumulates repeated local names in order and
returns a ConfigError exactly on: empty input, any NON-BLANK comma segment
without exactly one colon or with an empty (trimmed) side, or when every
segment is blank after trimming (zero valid pairs); blank segments — e.g.
from a trailing comma — are silently skipped, not errors. The mapping
round-trip example parses as specified. -/
theorem parseUserMap_grammar :
    (∀ s : Str, (∃ e, parseUserMap s = .error e) ↔
       (s = [] ∨ (∃ p ∈ splitOnChar ',' s, segBad p = true) ∨
        ∀ p ∈ splitOnChar ',' s, trimStr p = [])) ∧
    parseUserMap "alice:ghA,alice:ghB,bob:ghC".data =
      .ok [("alice".data, ["ghA".data, "ghB".data]), ("bob".data, ["ghC".data])] := by
  constructor
  · intro s
    by_cases hs : s.isEmpty
    · have hse : s = [] := List.isEmpty_iff.mp hs
      simp [parseUserMap, hs, hse]
    · have hsne : s ≠ [] := fun hc => by
        rw [hc] at hs
        exact hs (by simp)
      cases hpp : parsePairs (splitOnChar ',' s) [] with
      | error e =>
        have hbad := (parsePairs_error_iff (splitOnChar ',' s) []).mp ⟨e, hpp⟩
        simp only [parseUserMap, hs, Bool.false_eq_true, if_neg, not_false_eq_true, hpp]
        constructor
        · intro _
          exact Or.inr (Or.inl hbad)
        · intro _
          exact ⟨e, rfl⟩
      | ok m =>
        by_cases hm : m.isEmpty
        · have hme : m = [] := List.isEmpty_iff.mp hm
          have hblank := (parsePairs_ok_empty_iff _ _ _ hpp).mp hme
          simp only [parseUserMap, hs, Bool.false_eq_true, if_neg, not_false_eq_true,
            hpp, hm, if_pos]
          constructor
          · intro _
            exact Or.inr (Or.inr hblank.2)
          · intro _
            exact ⟨.noValidMappings, rfl⟩
        · have hmne : m ≠ [] := fun hc => by
            rw [hc] at hm
            exact hm (by simp)
          simp only [parseUserMap, hs, Bool.false_eq_true, if_neg, not_false_eq_true,
            hpp, hm]
          constructor
          · rintro ⟨e, he⟩
            exact absurd he (by simp)
          · rintro (h1 | h2 | h3)
            · exact absurd h1 hsne
            · have := (parsePairs_error_iff (splitOnChar ',' s) []).mpr h2
              rw [hpp] at this
              exact absurd this.choose_spec (by simp)
            · have := (parsePairs_ok_empty_iff _ _ _ hpp).mpr ⟨rfl, h3⟩
              exact absurd this hmne
  · decide

/-- C8 counterexample to the claim as stated: the input has a comma-separated
pair (the empty segment after the trailing comma) without exactly one colon,
yet ParseUserMap succeeds instead of returning a ConfigError. -/
theorem parseUserMap_trailingComma_cex :
    parseUserMap "alice:ghA,".data = .ok [("alice".data, ["ghA".data])] ∧
    ∃ p ∈ splitOnChar ',' "alice:ghA,".data, (splitOnChar ':' p).length ≠ 2 := by
  decide

/-! ## C6 and C10: MergeKeys / FormatKeys machinery -/

theorem mergeStep_eq (acc : List Str × List Str) (key : Str) :
    mergeStep acc key =
      if (trimStr key).isEmpty then acc
      else if (normalizeKey (trimStr key)).isEmpty ||
              acc.1.contains (normalizeKey (trimStr key)) then acc
      else (acc.1 ++ [normalizeKey (trimStr key)], acc.2 ++ [trimStr key]) := rfl

theorem normalizeKey_not_empty (l : Str) (htr : trimStr l = l) (hne : l ≠ []) :
    (normalizeKey l).isEmpty = false := by
  unfold normalizeKey
  rw [htr]
  have hb : l.isEmpty = false := by
    cases h : l.isEmpty
    · rfl
    · exact absurd (List.isEmpty_iff.mp h) hne
  simp only [hb, Bool.false_eq_true, if_false]
  cases hf : fields l with
  | nil => simp [hf, hb]
  | cons p0 rest =>
    cases rest with
    | nil => simp [hf, hb]
    | cons p1 rest2 => simp [hf]

theorem mergeFold_inv (keys : List Str) (acc : List Str × List Str)
    (h1 : acc.1 = acc.2.map normalizeKey) (h2 : acc.1.Nodup) :
    (keys.foldl mergeStep acc).1 = (keys.foldl mergeStep acc).2.map normalizeKey ∧
    (keys.foldl mergeStep acc).1.Nodup := by
  induction keys generalizing acc with
  | nil => exact ⟨h1, h2⟩
  | cons k ks ih =>
    simp only [List.foldl_cons]
    rw [mergeStep_eq]
    by_cases hk : (trimStr k).isEmpty
    · rw [if_pos hk]
      exact ih acc h1 h2
    · rw [if_neg hk]
      by_cases hn : ((normalizeKey (trimStr k)).isEmpty ||
          acc.1.contains (normalizeKey (trimStr k))) = true
      · rw [if_pos hn]
        exact ih acc h1 h2
      · rw [if_neg hn]
      
        have hnm : normalizeKey (trimStr k) ∉ acc.1 := by
          intro hc
          apply hn
          simp [hc]
        refine ih _ ?_ ?_
        · simp [h1]
        · simp [List.nodup_append, h2]
          intro hc
          exact hnm hc

theorem mergeFold_seen_mono (keys : List Str) (acc : List Str × List Str)
    (x : Str) (hx : x ∈ acc.1) : x ∈ (keys.foldl mergeStep acc).1 := by
  induction keys generalizing acc with
  | nil => exact hx
  | cons k ks ih =>
    simp only [List.foldl_cons]
    rw [mergeStep_eq]
    by_cases hk : (trimStr k).isEmpty
    · rw [if_pos hk]
      exact ih acc hx
    · rw [if_neg hk]
      by_cases hn : ((normalizeKey (trimStr k)).isEmpty ||
          acc.1.contains (normalizeKey (trimStr k))) = true
      · rw [if_pos hn]
        exact ih acc hx
      · rw [if_neg hn]
        exact ih _ (by simp [hx])

theorem mergeFold_res_mono (keys : List Str) (acc : List Str × List Str)
    (x : Str) (hx : x ∈ acc.2) : x ∈ (keys.foldl mergeStep acc).2 := by
  induction keys generalizing acc with
  | nil => exact hx
  | cons k ks ih =>
    simp only [List.foldl_cons]
    rw [mergeStep_eq]
    by_cases hk : (trimStr k).isEmpty
    · rw [if_pos hk]
      exact ih acc hx
    · rw [if_neg hk]
      by_cases hn : ((normalizeKey (trimStr k)).isEmpty ||
          acc.1.contains (normalizeKey (trimStr k))) = true
      · rw [if_pos hn]
        exact ih acc hx
      · rw [if_neg hn]
        exact ih _ (by simp [hx])

theorem mergeFold_res_src (keys : List Str) (acc : List Str × List Str)
    (x : Str) (hx : x ∈ (keys.foldl mergeStep acc).2) :
    x ∈ acc.2 ∨ ∃ k ∈ keys, x = trimStr k := by
  induction keys generalizing acc with
  | nil => exact Or.inl hx
  | cons k ks ih =>
    simp only [List.foldl_cons] at hx
    rw [mergeStep_eq] at hx
    by_cases hk : (trimStr k).isEmpty
    · rw [if_pos hk] at hx
      rcases ih acc hx with h | ⟨k2, hk2, he⟩
      · exact Or.inl h
      · exact Or.inr ⟨k2, List.mem_cons_of_mem k hk2, he⟩
    · rw [if_neg hk] at hx
      by_cases hn : ((normalizeKey (trimStr k)).isEmpty ||
          acc.1.contains (normalizeKey (trimStr k))) = true
      · rw [if_pos hn] at hx
        rcases ih acc hx with h | ⟨k2, hk2, he⟩
        · exact Or.inl h
        · exact Or.inr ⟨k2, List.mem_cons_of_mem k hk2, he⟩
      · rw [if_neg hn] at hx
        rcases ih _ hx with h | ⟨k2, hk2, he⟩
        · rcases List.mem_append.mp h with h2 | h2
          · exact Or.inl h2
          · exact Or.inr ⟨k, List.mem_cons_self k ks, by simpa using h2⟩
        · exact Or.inr ⟨k2, List.mem_cons_of_mem k hk2, he⟩

theorem mergeFold_res_new_unseen (keys : List Str) (acc : List Str × List Str)
    (x : Str) (hx : x ∈ (keys.foldl mergeStep acc).2) :
    x ∈ acc.2 ∨ normalizeKey x ∉ acc.1 := by
  induction keys generalizing acc with
  | nil => exact Or.inl hx
  | cons k ks ih =>
    simp only [List.foldl_cons] at hx
    rw [mergeStep_eq] at hx
    by_cases hk : (trimStr k).isEmpty
    · rw [if_pos hk] at hx
      exact ih acc hx
    · rw [if_neg hk] at hx
      by_cases hn : ((normalizeKey (trimStr k)).isEmpty ||
          acc.1.contains (normalizeKey (trimStr k))) = true
      · rw [if_pos hn] at hx
        exact ih acc hx
      · rw [if_neg hn] at hx
        have hnm : normalizeKey (trimStr k) ∉ acc.1 := by
          intro hc
          apply hn
          simp [hc]
        rcases ih _ hx with h | h
        · rcases List.mem_append.mp h with h2 | h2
          · exact Or.inl h2
          · right
            have : x = trimStr k := by simpa using h2
            rw [this]
            exact hnm
        · right
          intro hc
          exact h (List.mem_append.mpr (Or.inl hc))

theorem mergeFold_key_present (keys : List Str) (acc : List Str × List Str)
    (l : Str) (hmem : l ∈ keys) (htr : trimStr l = l) (hne : l ≠ []) :
    normalizeKey l ∈ (keys.foldl mergeStep acc).1 := by
  induction keys generalizing acc with
  | nil => simp at hmem
  | cons k ks ih =>
    simp only [List.foldl_cons]
    rcases List.mem_cons.mp hmem with h | h
    · subst h
      rw [mergeStep_eq, htr]
      have hkE : l.isEmpty = false := by
        cases h2 : l.isEmpty
        · rfl
        · exact absurd (List.isEmpty_iff.mp h2) hne
      rw [hkE]
      simp only [Bool.false_eq_true, if_neg, not_false_eq_true]
      by_cases hn : ((normalizeKey l).isEmpty || acc.1.contains (normalizeKey l)) = true
      · rw [if_pos hn]
        have : normalizeKey l ∈ acc.1 := by
          rcases Bool.or_eq_true_iff.mp hn with h2 | h2
          · rw [normalizeKey_not_empty l htr hne] at h2
            exact absurd h2 (by simp)
          · simpa using h2
        exact mergeFold_seen_mono ks acc _ this
      · rw [if_neg hn]
        exact mergeFold_seen_mono ks _ _ (by simp)
    · exact ih (mergeStep acc k) h

theorem normalizeKey_trim (s : Str) : normalizeKey (trimStr s) = normalizeKey s := by
  unfold normalizeKey
  rw [trimStr_idem]

theorem mergeFold_self_mem (keys : List Str) (acc : List Str × List Str) (l : Str)
    (hmem : l ∈ keys) (htr : trimStr l = l) (hne : l ≠ [])
    (huniq : ∀ k ∈ keys, normalizeKey k = normalizeKey l → k = l)
    (hseen : normalizeKey l ∉ acc.1) :
    l ∈ (keys.foldl mergeStep acc).2 := by
  induction keys generalizing acc with
  | nil => simp at hmem
  | cons k ks ih =>
    simp only [List.foldl_cons]
    rcases List.mem_cons.mp hmem with h | h
    · subst h
      rw [mergeStep_eq, htr]
      have hkE : l.isEmpty = false := by
        cases h2 : l.isEmpty
        · rfl
        · exact absurd (List.isEmpty_iff.mp h2) hne
      rw [hkE]
      simp only [Bool.false_eq_true, if_neg, not_false_eq_true]
      have hn : ((normalizeKey l).isEmpty || acc.1.contains (normalizeKey l)) ≠ true := by
        intro hc
        rcases Bool.or_eq_true_iff.mp hc with h2 | h2
        · rw [normalizeKey_not_empty l htr hne] at h2
          exact absurd h2 (by simp)
        · exact hseen (by simpa using h2)
      rw [if_neg hn]
      exact mergeFold_res_mono ks _ _ (by simp)
    · have hkl : normalizeKey k ≠ normalizeKey l ∨ k = l := by
        by_cases h2 : normalizeKey k = normalizeKey l
        · exact Or.inr (huniq k (List.mem_cons_self k ks) h2)
        · exact Or.inl h2
      have huniq2 : ∀ k2 ∈ ks, normalizeKey k2 = normalizeKey l → k2 = l :=
        fun k2 hk2 => huniq k2 (List.mem_cons_of_mem k hk2)
      rcases hkl with hkl | hkl
      · -- head differs in key; seen set may grow but never with the key of l
        rw [mergeStep_eq]
        by_cases hk : (trimStr k).isEmpty
        · rw [if_pos hk]
          exact ih acc h huniq2 hseen
        · rw [if_neg hk]
          by_cases hn : ((normalizeKey (trimStr k)).isEmpty ||
              acc.1.contains (normalizeKey (trimStr k))) = true
          · rw [if_pos hn]
            exact ih acc h huniq2 hseen
          · rw [if_neg hn]
            refine ih _ h huniq2 ?_
            intro hc
            rcases List.mem_append.mp hc with h2 | h2
            · exact hseen h2
            · have h3 : normalizeKey (trimStr k) = normalizeKey l := by
                have := h2
                simp at this
                exact this.symm
              rw [normalizeKey_trim k] at h3
              exact hkl h3
      · rw [hkl, mergeStep_eq, htr]
        have hkE : l.isEmpty = false := by
          cases h2 : l.isEmpty
          · rfl
          · exact absurd (List.isEmpty_iff.mp h2) hne
        rw [hkE]
        simp only [Bool.false_eq_true, if_neg, not_false_eq_true]
        have hn : ((normalizeKey l).isEmpty || acc.1.contains (normalizeKey l)) ≠ true := by
          intro hc
          rcases Bool.or_eq_true_iff.mp hc with h2 | h2
          · rw [normalizeKey_not_empty l htr hne] at h2
            exact absurd h2 (by simp)
          · exact hseen (by simpa using h2)
        rw [if_neg hn]
        exact mergeFold_res_mono ks _ _ (by simp)

theorem splitOnChar_ne_nil (c : Char) (s : Str) : splitOnChar c s ≠ [] := by
  cases s with
  | nil => simp [splitOnChar]
  | cons x xs =>
    unfold splitOnChar
    by_cases h : x = c
    · simp [h]
    · rw [if_neg h]
      cases splitOnChar c xs <;> simp

theorem splitOnChar_append_no_sep (c : Char) (x r : Str) (hx : c ∉ x) :
    splitOnChar c (x ++ r) = List.modifyHead (fun l => x ++ l) (splitOnChar c r) := by
  induction x with
  | nil =>
    cases h : splitOnChar c r with
    | nil => exact absurd h (splitOnChar_ne_nil c r)
    | cons y ys => simp [h]
  | cons a as ih =>
    have ha : a ≠ c := fun hc => hx (by rw [hc]; exact List.mem_cons_self c as)
    have has : c ∉ as := fun hc => hx (List.mem_cons_of_mem a hc)
    have hstep : splitOnChar c (a :: (as ++ r)) =
        (match splitOnChar c (as ++ r) with
         | [] => [[a]]
         | y :: ys => (a :: y) :: ys) := by
      conv_lhs => rw [splitOnChar]
      rw [if_neg ha]
    rw [List.cons_append, hstep, ih has]
    cases h : splitOnChar c r with
    | nil => exact absurd h (splitOnChar_ne_nil c r)
    | cons y ys => simp

theorem splitOnChar_cons_sep (c : Char) (r : Str) :
    splitOnChar c (c :: r) = [] :: splitOnChar c r := by
  conv_lhs => rw [splitOnChar]
  rw [if_pos rfl]

theorem splitOnChar_joinChar (c : Char) (ks : List Str) (hks : ks ≠ [])
    (hnc : ∀ l ∈ ks, c ∉ l) :
    splitOnChar c (joinChar c ks ++ [c]) = ks ++ [[]] := by
  induction ks with
  | nil => exact absurd rfl hks
  | cons x xs ih =>
    cases xs with
    | nil =>
      have hx : c ∉ x := hnc x (List.mem_cons_self x [])
      rw [joinChar]
      rw [splitOnChar_append_no_sep c x [c] hx, splitOnChar_cons_sep]
      simp [splitOnChar]
    | cons y ys =>
      have hx : c ∉ x := hnc x (List.mem_cons_self x (y :: ys))
      have hrest : ∀ l ∈ y :: ys, c ∉ l := fun l hl => hnc l (List.mem_cons_of_mem x hl)
      have hjoin : joinChar c (x :: y :: ys) = x ++ c :: joinChar c (y :: ys) := rfl
      rw [hjoin]
      have hassoc : (x ++ c :: joinChar c (y :: ys)) ++ [c] =
          x ++ (c :: (joinChar c (y :: ys) ++ [c])) := by simp
      rw [hassoc, splitOnChar_append_no_sep c x _ hx, splitOnChar_cons_sep,
        ih (by simp) hrest]
      simp

theorem readExistingKeys_mem (lines : List Str) (l : Str)
    (hl : l ∈ readExistingKeys lines) : trimStr l = l ∧ l ≠ [] := by
  unfold readExistingKeys at hl
  have h1 := List.mem_of_mem_filter hl
  have h2 := List.of_mem_filter hl
  obtain ⟨y, _, hy⟩ := List.mem_map.mp h1
  constructor
  · rw [← hy, trimStr_idem]
  · intro hc
    rw [hc] at h2
    simp at h2

/-- C6. MergeKeys deduplicates by the first two whitespace-separated tokens
(normalizeKey); local entries are folded in first, so a local line is the
surviving representative of its normalized key whenever the same key also
appears among the resolved keys; FormatKeys joins the survivors with single
newlines plus exactly one trailing newline (splitting the output on newlines
recovers the lines), and an empty merged set formats to the empty string.
Local entries are as read from disk, i.e. already whitespace-trimmed. -/
theorem mergeKeys_contract (gh loc : List Str) (hloc : ∀ l ∈ loc, trimStr l = l) :
    (mergeKeys gh loc).Pairwise (fun a b => normalizeKey a ≠ normalizeKey b) ∧
    (∀ l ∈ loc, l ≠ [] →
      (∃ x ∈ mergeKeys gh loc, x ∈ loc ∧ normalizeKey x = normalizeKey l) ∧
      (∀ x ∈ mergeKeys gh loc, normalizeKey x = normalizeKey l → x ∈ loc)) ∧
    formatKeys [] = [] ∧
    (∀ ks : List Str, ks ≠ [] → (∀ k ∈ ks, '\n' ∉ k) →
      splitOnChar '\n' (formatKeys ks) = ks ++ [[]]) := by
  have hinv := mergeFold_inv gh (loc.foldl mergeStep ([], []))
    (mergeFold_inv loc ([], []) rfl List.nodup_nil).1
    (mergeFold_inv loc ([], []) rfl List.nodup_nil).2
  refine ⟨?_, ?_, rfl, ?_⟩
  · have hnd := hinv.2
    rw [hinv.1] at hnd
    rw [List.Nodup] at hnd
    have hpm : ((gh.foldl mergeStep (loc.foldl mergeStep ([], []))).2.map
          normalizeKey).Pairwise (fun a b : Str => a ≠ b) ↔
        (gh.foldl mergeStep (loc.foldl mergeStep ([], []))).2.Pairwise
          (fun a b => normalizeKey a ≠ normalizeKey b) := List.pairwise_map
    exact (hpm.mp hnd).imp (fun h => h)
  · intro l hl hlne
    have htr := hloc l hl
    have hkey : normalizeKey l ∈ (loc.foldl mergeStep ([], [])).1 :=
      mergeFold_key_present loc ([], []) l hl htr hlne
    have hsub : ∀ x ∈ mergeKeys gh loc, normalizeKey x = normalizeKey l → x ∈ loc := by
      intro x hx hxk
      rcases mergeFold_res_new_unseen gh _ x hx with h | h
      · rcases mergeFold_res_src loc ([], []) x h with h2 | ⟨k2, hk2, he⟩
        · simp at h2
        · rw [he, hloc k2 hk2]
          exact hk2
      · rw [hxk] at h
        exact absurd hkey h
    constructor
    · have hkey2 : normalizeKey l ∈ (gh.foldl mergeStep (loc.foldl mergeStep ([], []))).1 :=
        mergeFold_seen_mono gh _ _ hkey
      rw [hinv.1] at hkey2
      obtain ⟨x, hx, hxe⟩ := List.mem_map.mp hkey2
      exact ⟨x, hx, hsub x hx hxe, hxe⟩
    · exact hsub
  · intro ks hks hnc
    unfold formatKeys
    have hksb : ks.isEmpty = false := by
      cases h : ks.isEmpty
      · rfl
      · exact absurd (List.isEmpty_iff.mp h) hks
    rw [hksb]
    simp only [Bool.false_eq_true, if_false]
    exact splitOnChar_joinChar '\n' ks hks hnc

/-- C6 witness: the spec's dedup/merge example — a local and a resolved line
sharing algorithm and blob but differing in comment merge to the single local
line — instantiating the contract, plus the format round trip there. -/
theorem mergeKeys_contract_witness :
    mergeKeys ["ssh-rsa AAA remote@h".data] ["ssh-rsa AAA local@h".data] =
      ["ssh-rsa AAA local@h".data] ∧
    (∃ x ∈ mergeKeys ["ssh-rsa AAA remote@h".data] ["ssh-rsa AAA local@h".data],
      x ∈ ["ssh-rsa AAA local@h".data] ∧
      normalizeKey x = normalizeKey "ssh-rsa AAA local@h".data) :=
  ⟨by decide,
   ((mergeKeys_contract ["ssh-rsa AAA remote@h".data] ["ssh-rsa AAA local@h".data]
      (by decide)).2.1 "ssh-rsa AAA local@h".data (by decide) (by decide)).1⟩

theorem joinChar_infix_mem (c : Char) (ks : List Str) (x : Str) (hx : x ∈ ks) :
    x <:+: joinChar c ks := by
  induction ks with
  | nil => simp at hx
  | cons y ys ih =>
    rcases List.mem_cons.mp hx with h | h
    · subst h
      cases ys with
      | nil => exact List.infix_refl x
      | cons z zs => exact (List.prefix_append x (c :: joinChar c (z :: zs))).isInfix
    · cases ys with
      | nil => simp at h
      | cons z zs =>
        have h3 : joinChar c (z :: zs) <:+: y ++ c :: joinChar c (z :: zs) := by
          refine List.IsSuffix.isInfix ?_
          refine ⟨y ++ [c], ?_⟩
          simp
        exact (ih h).trans h3

/-- C10. Pre-existing local authorized_keys entries bypass fail-secure
validation: for a local entry (as filtered in by ReadExistingKeys) whose
leading token is not a canonical algorithm identifier, the merge still
includes that exact line in the final output — provided no other local entry
shares its normalized key, i.e. it is not deduplicated away — and the process
does not abort: only the resolved keys are validated before emission. -/
theorem localEntries_bypass_validation (githubKeys fileLines : List Str) (l : Str)
    (hval : ∀ k ∈ githubKeys, isValidKeyFormat k = true)
    (hl : l ∈ readExistingKeys fileLines)
    (_hbad : leadingToken l ∉ validKeyPrefixes)
    (huniq : ∀ x ∈ readExistingKeys fileLines, normalizeKey x = normalizeKey l → x = l) :
    mainEmit githubKeys fileLines =
      some (formatKeys (mergeKeys githubKeys (readExistingKeys fileLines))) ∧
    l ∈ mergeKeys githubKeys (readExistingKeys fileLines) ∧
    l <:+: formatKeys (mergeKeys githubKeys (readExistingKeys fileLines)) := by
  obtain ⟨htr, hne⟩ := readExistingKeys_mem fileLines l hl
  have hmem : l ∈ mergeKeys githubKeys (readExistingKeys fileLines) := by
    unfold mergeKeys
    refine mergeFold_res_mono githubKeys _ l ?_
    exact mergeFold_self_mem (readExistingKeys fileLines) ([], []) l hl htr hne huniq
      (by simp)
  refine ⟨?_, hmem, ?_⟩
  · unfold mainEmit
    rw [if_pos (List.all_eq_true.mpr hval)]
  · unfold formatKeys
    have hb : (mergeKeys githubKeys (readExistingKeys fileLines)).isEmpty = false := by
      cases h : (mergeKeys githubKeys (readExistingKeys fileLines)).isEmpty
      · rfl
      · rw [List.isEmpty_iff.mp h] at hmem
        simp at hmem
    rw [hb]
    simp only [Bool.false_eq_true, if_false]
    exact (joinChar_infix_mem '\n' _ l hmem).trans
      (List.prefix_append (joinChar '\n' (mergeKeys githubKeys
        (readExistingKeys fileLines))) ['\n']).isInfix

/-- C10 witness: a local line with leading token weird-key survives the merge
with a valid resolved key and the process emits output. -/
theorem localEntries_bypass_validation_witness :
    mainEmit ["ssh-rsa AAA x@h".data] ["weird-key BBB".data] =
      some (formatKeys (mergeKeys ["ssh-rsa AAA x@h".data]
        (readExistingKeys ["weird-key BBB".data]))) ∧
    "weird-key BBB".data ∈ mergeKeys ["ssh-rsa AAA x@h".data]
      (readExistingKeys ["weird-key BBB".data]) ∧
    "weird-key BBB".data <:+: formatKeys (mergeKeys ["ssh-rsa AAA x@h".data]
      (readExistingKeys ["weird-key BBB".data])) :=
  localEntries_bypass_validation ["ssh-rsa AAA x@h".data] ["weird-key BBB".data]
    "weird-key BBB".data (by decide) (by decide) (by decide) (by decide)

/-! ## C2, C3, C9: resolver machinery -/

theorem resolveStep_ok (env : Str → UserEnv) (acc : List Str × List Str) (u : Str)
    (ks : List Str) (h : resolveKeysForGitHubUser (env u) = .ok ks) :
    resolveStep env acc u = (insertDedup acc.1 ks, acc.2) := by
  unfold resolveStep
  rw [h]

theorem resolveStep_err (env : Str → UserEnv) (acc : List Str × List Str) (u : Str)
    (e : Str) (h : resolveKeysForGitHubUser (env u) = .error e) :
    resolveStep env acc u = (acc.1, acc.2 ++ [u ++ ": ".data ++ e]) := by
  unfold resolveStep
  rw [h]

theorem resolveFold_errs_length (env : Str → UserEnv) (users : List Str)
    (acc : List Str × List Str) :
    ((users.foldl (resolveStep env) acc).2).length =
      acc.2.length + users.countP (resolveFails env) := by
  induction users generalizing acc with
  | nil => simp
  | cons u us ih =>
    simp only [List.foldl_cons, List.countP_cons]
    cases h : resolveKeysForGitHubUser (env u) with
    | ok ks =>
      rw [resolveStep_ok env acc u ks h, ih]
      have hf : resolveFails env u = false := by simp [resolveFails, h]
      simp [hf]
    | error e =>
      rw [resolveStep_err env acc u e h, ih]
      have hf : resolveFails env u = true := by simp [resolveFails, h]
      simp [hf]
      omega

theorem resolveFold_keys_indep (env : Str → UserEnv) (users : List Str)
    (k : List Str) (e1 e2 : List Str) :
    (users.foldl (resolveStep env) (k, e1)).1 =
      (users.foldl (resolveStep env) (k, e2)).1 := by
  induction users generalizing k e1 e2 with
  | nil => rfl
  | cons u us ih =>
    simp only [List.foldl_cons]
    cases h : resolveKeysForGitHubUser (env u) with
    | ok ks =>
      rw [resolveStep_ok env (k, e1) u ks h, resolveStep_ok env (k, e2) u ks h]
      exact ih (insertDedup k ks) e1 e2
    | error e =>
      rw [resolveStep_err env (k, e1) u e h, resolveStep_err env (k, e2) u e h]
      exact ih k (e1 ++ [u ++ ": ".data ++ e]) (e2 ++ [u ++ ": ".data ++ e])

theorem resolveFold_keys_allfail (env : Str → UserEnv) (users : List Str)
    (acc : List Str × List Str) (h : ∀ u ∈ users, resolveFails env u = true) :
    (users.foldl (resolveStep env) acc).1 = acc.1 := by
  induction users generalizing acc with
  | nil => rfl
  | cons u us ih =>
    have hu := h u (List.mem_cons_self u us)
    cases he : resolveKeysForGitHubUser (env u) with
    | ok ks => simp [resolveFails, he] at hu
    | error er =>
      simp only [List.foldl_cons]
      rw [resolveStep_err env acc u er he]
      exact ih _ (fun v hv => h v (List.mem_cons_of_mem u hv))

theorem insertDedup_mono (a : List Str) (ks : List Str) (x : Str) (hx : x ∈ a) :
    x ∈ insertDedup a ks := by
  induction ks generalizing a with
  | nil => exact hx
  | cons k kt ih =>
    unfold insertDedup
    simp only [List.foldl_cons]
    by_cases h : k ∈ a
    · rw [if_pos h]
      exact ih a hx
    · rw [if_neg h]
      exact ih (a ++ [k]) (by simp [hx])

theorem insertDedup_mem_keys (a : List Str) (ks : List Str) (x : Str) (hx : x ∈ ks) :
    x ∈ insertDedup a ks := by
  induction ks generalizing a with
  | nil => simp at hx
  | cons k kt ih =>
    unfold insertDedup
    simp only [List.foldl_cons]
    rcases List.mem_cons.mp hx with h | h
    · subst h
      by_cases h2 : x ∈ a
      · rw [if_pos h2]
        exact insertDedup_mono a kt x h2
      · rw [if_neg h2]
        exact insertDedup_mono (a ++ [x]) kt x (by simp)
    · by_cases h2 : k ∈ a
      · rw [if_pos h2]
        exact ih a h
      · rw [if_neg h2]
        exact ih (a ++ [k]) h

theorem insertDedup_src (a : List Str) (ks : List Str) (x : Str)
    (hx : x ∈ insertDedup a ks) : x ∈ a ∨ x ∈ ks := by
  induction ks generalizing a with
  | nil => exact Or.inl hx
  | cons k kt ih =>
    unfold insertDedup at hx
    simp only [List.foldl_cons] at hx
    by_cases h : k ∈ a
    · rw [if_pos h] at hx
      rcases ih a hx with h2 | h2
      · exact Or.inl h2
      · exact Or.inr (List.mem_cons_of_mem k h2)
    · rw [if_neg h] at hx
      rcases ih (a ++ [k]) hx with h2 | h2
      · rcases List.mem_append.mp h2 with h3 | h3
        · exact Or.inl h3
        · exact Or.inr (by simp at h3; simp [h3])
      · exact Or.inr (List.mem_cons_of_mem k h2)

theorem insertDedup_nodup (a : List Str) (ks : List Str) (h : a.Nodup) :
    (insertDedup a ks).Nodup := by
  induction ks generalizing a with
  | nil => exact h
  | cons k kt ih =>
    unfold insertDedup
    simp only [List.foldl_cons]
    by_cases h2 : k ∈ a
    · rw [if_pos h2]
      exact ih a h
    · rw [if_neg h2]
      refine ih (a ++ [k]) ?_
      simp [List.nodup_append, h, h2]

theorem resolveFold_keys_mono (env : Str → UserEnv) (users : List Str)
    (acc : List Str × List Str) (x : Str) (hx : x ∈ acc.1) :
    x ∈ (users.foldl (resolveStep env) acc).1 := by
  induction users generalizing acc with
  | nil => exact hx
  | cons u us ih =>
    simp only [List.foldl_cons]
    cases h : resolveKeysForGitHubUser (env u) with
    | ok ks =>
      rw [resolveStep_ok env acc u ks h]
      exact ih _ (insertDedup_mono acc.1 ks x hx)
    | error e =>
      rw [resolveStep_err env acc u e h]
      exact ih _ hx

theorem resolveFold_keys_src (env : Str → UserEnv) (users : List Str)
    (acc : List Str × List Str) (x : Str)
    (hx : x ∈ (users.foldl (resolveStep env) acc).1) :
    x ∈ acc.1 ∨ ∃ u ∈ users, ∃ ks,
      resolveKeysForGitHubUser (env u) = .ok ks ∧ x ∈ ks := by
  induction users generalizing acc with
  | nil => exact Or.inl hx
  | cons u us ih =>
    simp only [List.foldl_cons] at hx
    cases h : resolveKeysForGitHubUser (env u) with
    | ok ks =>
      rw [resolveStep_ok env acc u ks h] at hx
      rcases ih _ hx with h2 | ⟨v, hv, ks2, hks2, hx2⟩
      · rcases insertDedup_src acc.1 ks x h2 with h3 | h3
        · exact Or.inl h3
        · exact Or.inr ⟨u, List.mem_cons_self u us, ks, h, h3⟩
      · exact Or.inr ⟨v, List.mem_cons_of_mem u hv, ks2, hks2, hx2⟩
    | error e =>
      rw [resolveStep_err env acc u e h] at hx
      rcases ih _ hx with h2 | ⟨v, hv, ks2, hks2, hx2⟩
      · exact Or.inl h2
      · exact Or.inr ⟨v, List.mem_cons_of_mem u hv, ks2, hks2, hx2⟩

theorem resolveFold_nodup (env : Str → UserEnv) (users : List Str)
    (acc : List Str × List Str) (h : acc.1.Nodup) :
    (users.foldl (resolveStep env) acc).1.Nodup := by
  induction users generalizing acc with
  | nil => exact h
  | cons u us ih =>
    simp only [List.foldl_cons]
    cases he : resolveKeysForGitHubUser (env u) with
    | ok ks =>
      rw [resolveStep_ok env acc u ks he]
      exact ih _ (insertDedup_nodup acc.1 ks h)
    | error e =>
      rw [resolveStep_err env acc u e he]
      exact ih _ h

theorem resolveFold_success_mem (env : Str → UserEnv) (users : List Str)
    (acc : List Str × List Str) (u : Str) (ks : List Str) (x : Str)
    (hu : u ∈ users) (hok : resolveKeysForGitHubUser (env u) = .ok ks)
    (hx : x ∈ ks) : x ∈ (users.foldl (resolveStep env) acc).1 := by
  obtain ⟨s, t, rfl⟩ := List.append_of_mem hu
  rw [List.foldl_append, List.foldl_cons]
  refine resolveFold_keys_mono env t _ x ?_
  rw [resolveStep_ok env _ u ks hok]
  exact insertDedup_mem_keys _ ks x hx

theorem resolveFold_errs_mono (env : Str → UserEnv) (users : List Str)
    (acc : List Str × List Str) (e : Str) (he : e ∈ acc.2) :
    e ∈ (users.foldl (resolveStep env) acc).2 := by
  induction users generalizing acc with
  | nil => exact he
  | cons u us ih =>
    simp only [List.foldl_cons]
    cases h : resolveKeysForGitHubUser (env u) with
    | ok ks =>
      rw [resolveStep_ok env acc u ks h]
      exact ih _ he
    | error er =>
      rw [resolveStep_err env acc u er h]
      exact ih _ (by simp [he])

theorem resolveFold_err_msg_mem (env : Str → UserEnv) (users : List Str)
    (acc : List Str × List Str) (u : Str) (er : Str)
    (hu : u ∈ users) (herr : resolveKeysForGitHubUser (env u) = .error er) :
    (u ++ ": ".data ++ er) ∈ (users.foldl (resolveStep env) acc).2 := by
  obtain ⟨s, t, rfl⟩ := List.append_of_mem hu
  rw [List.foldl_append, List.foldl_cons]
  refine resolveFold_errs_mono env t _ _ ?_
  rw [resolveStep_err env _ u er herr]
  simp

theorem joinFold_infix_acc (es : List Str) (acc : Str) :
    acc <:+: es.foldl (fun a x => a ++ "; ".data ++ x) acc := by
  induction es generalizing acc with
  | nil => exact List.infix_refl acc
  | cons x xs ih =>
    simp only [List.foldl_cons]
    refine List.IsInfix.trans ?_ (ih (acc ++ "; ".data ++ x))
    have h : acc ++ "; ".data ++ x = acc ++ ("; ".data ++ x) := by simp
    rw [h]
    exact (List.prefix_append acc ("; ".data ++ x)).isInfix

theorem joinFold_infix_mem (es : List Str) (e : Str) (he : e ∈ es) (acc : Str) :
    e <:+: es.foldl (fun a x => a ++ "; ".data ++ x) acc := by
  induction es generalizing acc with
  | nil => simp at he
  | cons x xs ih =>
    simp only [List.foldl_cons]
    rcases List.mem_cons.mp he with h | h
    · subst h
      refine List.IsInfix.trans ?_ (joinFold_infix_acc xs (acc ++ "; ".data ++ e))
      exact (List.suffix_append (acc ++ "; ".data) e).isInfix
    · exact ih h _

theorem joinErrors_infix_mem (errs : List Str) (e : Str) (he : e ∈ errs) :
    e <:+: joinErrors errs := by
  cases errs with
  | nil => simp at he
  | cons e0 es =>
    unfold joinErrors
    rcases List.mem_cons.mp he with h | h
    · subst h
      exact joinFold_infix_acc es e
    · exact joinFold_infix_mem es e h e0

/-- C2. For a non-empty local account with a non-empty identity list,
ResolveKeys errors iff every mapped identity failed; the aggregated error
message contains each failed identity's name and reason entry; and if at
least one identity produced a non-empty key list, the call succeeds with a
non-empty (partial) result even when other identities failed. -/
theorem resolveKeys_partial_failure (userMap : List (Str × List Str))
    (env : Str → UserEnv) (sshUsername : Str)
    (h1 : sshUsername ≠ []) (h2 : getGitHubUsers userMap sshUsername ≠ []) :
    ((∃ e, resolveKeys userMap env sshUsername = .error e) ↔
      ∀ u ∈ getGitHubUsers userMap sshUsername, resolveFails env u = true) ∧
    (∀ e, resolveKeys userMap env sshUsername = .error e →
      ∀ u ∈ getGitHubUsers userMap sshUsername, ∀ er,
        resolveKeysForGitHubUser (env u) = .error er →
        (u ++ ": ".data ++ er) <:+: e) ∧
    (∀ u ∈ getGitHubUsers userMap sshUsername, ∀ ks,
      resolveKeysForGitHubUser (env u) = .ok ks → ks ≠ [] →
      ∃ r, resolveKeys userMap env sshUsername = .ok r ∧ r ≠ []) := by
  have hb1 : sshUsername.isEmpty = false := by
    cases h : sshUsername.isEmpty
    · rfl
    · exact absurd (List.isEmpty_iff.mp h) h1
  have hb2 : (getGitHubUsers userMap sshUsername).isEmpty = false := by
    cases h : (getGitHubUsers userMap sshUsername).isEmpty
    · rfl
    · exact absurd (List.isEmpty_iff.mp h) h2
  have hred : resolveKeys userMap env sshUsername =
      (if (resolveAll env (getGitHubUsers userMap sshUsername)).1.isEmpty ∧
          (resolveAll env (getGitHubUsers userMap sshUsername)).2.length =
            (getGitHubUsers userMap sshUsername).length then
        .error ("failed to resolve keys for all GitHub users: ".data ++
          joinErrors (resolveAll env (getGitHubUsers userMap sshUsername)).2)
      else .ok (resolveAll env (getGitHubUsers userMap sshUsername)).1) := by
    unfold resolveKeys
    simp only [hb1, hb2, Bool.false_eq_true, if_false]
    by_cases hc : (resolveAll env (getGitHubUsers userMap sshUsername)).1.isEmpty ∧
        (resolveAll env (getGitHubUsers userMap sshUsername)).2.length =
          (getGitHubUsers userMap sshUsername).length
    · rw [if_pos (by simp [hc.1, hc.2]), if_pos hc]
    · rw [if_neg (by
        intro hcc
        rcases Bool.and_eq_true_iff.mp hcc with ⟨ha, hb⟩
        exact hc ⟨ha, by simpa using hb⟩), if_neg hc]
  have hlen0 : (resolveAll env (getGitHubUsers userMap sshUsername)).2.length =
      (getGitHubUsers userMap sshUsername).countP (resolveFails env) := by
    have := resolveFold_errs_length env (getGitHubUsers userMap sshUsername) ([], [])
    simpa [resolveAll] using this
  refine ⟨?_, ?_, ?_⟩
  · constructor
    · rintro ⟨e, he⟩
      rw [hred] at he
      by_cases hc : (resolveAll env (getGitHubUsers userMap sshUsername)).1.isEmpty ∧
          (resolveAll env (getGitHubUsers userMap sshUsername)).2.length =
            (getGitHubUsers userMap sshUsername).length
      · have hcount : (getGitHubUsers userMap sshUsername).countP (resolveFails env) =
            (getGitHubUsers userMap sshUsername).length := by
          rw [← hlen0]
          exact hc.2
        exact List.countP_eq_length.mp hcount
      · rw [if_neg hc] at he
        exact absurd he (by simp)
    · intro hall
      have hkeys : (resolveAll env (getGitHubUsers userMap sshUsername)).1 = [] := by
        unfold resolveAll
        exact resolveFold_keys_allfail env _ ([], []) hall
      have hcnt : (resolveAll env (getGitHubUsers userMap sshUsername)).2.length =
          (getGitHubUsers userMap sshUsername).length := by
        rw [hlen0]
        exact List.countP_eq_length.mpr hall
      rw [hred, if_pos ⟨by simp [hkeys], hcnt⟩]
      exact ⟨_, rfl⟩
  · intro e he u hu er herr
    rw [hred] at he
    by_cases hc : (resolveAll env (getGitHubUsers userMap sshUsername)).1.isEmpty ∧
        (resolveAll env (getGitHubUsers userMap sshUsername)).2.length =
          (getGitHubUsers userMap sshUsername).length
    · rw [if_pos hc] at he
      have hee : ("failed to resolve keys for all GitHub users: ".data ++
          joinErrors (resolveAll env (getGitHubUsers userMap sshUsername)).2) = e := by
        injection he
      rw [← hee]
      have hmem : (u ++ ": ".data ++ er) ∈
          (resolveAll env (getGitHubUsers userMap sshUsername)).2 :=
        resolveFold_err_msg_mem env _ ([], []) u er hu herr
      refine List.IsInfix.trans (joinErrors_infix_mem _ _ hmem) ?_
      exact (List.suffix_append "failed to resolve keys for all GitHub users: ".data
        (joinErrors (resolveAll env (getGitHubUsers userMap sshUsername)).2)).isInfix
    · rw [if_neg hc] at he
      exact absurd he (by simp)
  · intro u hu ks hok hksne
    obtain ⟨x, hx⟩ := List.exists_mem_of_ne_nil ks hksne
    have hxmem : x ∈ (resolveAll env (getGitHubUsers userMap sshUsername)).1 :=
      resolveFold_success_mem env _ ([], []) u ks x hu hok hx
    have hne : (resolveAll env (getGitHubUsers userMap sshUsername)).1 ≠ [] := by
      intro hcc
      rw [hcc] at hxmem
      simp at hxmem
    have hc : ¬((resolveAll env (getGitHubUsers userMap sshUsername)).1.isEmpty ∧
        (resolveAll env (getGitHubUsers userMap sshUsername)).2.length =
          (getGitHubUsers userMap sshUsername).length) := by
      rintro ⟨ha, _⟩
      exact hne (List.isEmpty_iff.mp ha)
    rw [hred, if_neg hc]
    exact ⟨_, rfl, hne⟩

/-- C2 witness: with two mapped identities both failing, ResolveKeys errors. -/
theorem resolveKeys_partial_failure_witness :
    ∃ e, resolveKeys [("alice".data, ["gh1".data, "gh2".data])] envAllFail
      "alice".data = .error e :=
  ((resolveKeys_partial_failure [("alice".data, ["gh1".data, "gh2".data])] envAllFail
    "alice".data (by decide) (by decide)).1).mpr (by decide)

/-- C3. (a) For any identity whose fetch fails, a non-empty cache entry —
expired or not — makes resolution succeed with exactly the cached keys and no
error. (b) An identity with no cache entry and a failing fetch contributes
nothing to the key union (the union equals the one computed without it) and
is recorded in the error list, while all remaining identities are still
processed. -/
theorem resolver_offline_fallback (env : Str → UserEnv) (pre post : List Str)
    (bad : Str) (hc : (env bad).cacheKeys = [])
    (hf : ∃ er, (env bad).fetch = .error er) :
    (∀ e : UserEnv, (∃ er, e.fetch = .error er) → e.cacheKeys ≠ [] →
      resolveKeysForGitHubUser e = .ok e.cacheKeys) ∧
    (resolveAll env (pre ++ bad :: post)).1 = (resolveAll env (pre ++ post)).1 ∧
    (∃ m, (bad ++ ": ".data ++ m) ∈ (resolveAll env (pre ++ bad :: post)).2) := by
  obtain ⟨er, her⟩ := hf
  have hbadres : resolveKeysForGitHubUser (env bad) =
      .error ("failed to fetch keys from GitHub and no cache available: ".data ++ er) := by
    unfold resolveKeysForGitHubUser
    rw [hc, her]
    simp
  refine ⟨?_, ?_, ?_⟩
  · rintro e ⟨er2, her2⟩ hck
    have hb : e.cacheKeys.isEmpty = false := by
      cases h : e.cacheKeys.isEmpty
      · rfl
      · exact absurd (List.isEmpty_iff.mp h) hck
    cases hx : e.cacheExpired <;> simp [resolveKeysForGitHubUser, hb, hx, her2]
  · unfold resolveAll
    rw [List.foldl_append, List.foldl_cons, List.foldl_append]
    rw [resolveStep_err env _ bad _ hbadres]
    exact resolveFold_keys_indep env post _ _ _
  · refine ⟨"failed to fetch keys from GitHub and no cache available: ".data ++ er, ?_⟩
    unfold resolveAll
    exact resolveFold_err_msg_mem env _ ([], []) bad _ (by simp) hbadres

/-- C3 witness: the offline-fallback theorem instantiated at envC3 with bad
identity x2 between x1 and nothing. -/
theorem resolver_offline_fallback_witness :
    (∀ e : UserEnv, (∃ er, e.fetch = .error er) → e.cacheKeys ≠ [] →
      resolveKeysForGitHubUser e = .ok e.cacheKeys) ∧
    (resolveAll envC3 (["x1".data] ++ "x2".data :: [])).1 =
      (resolveAll envC3 (["x1".data] ++ [])).1 ∧
    (∃ m, ("x2".data ++ ": ".data ++ m) ∈
      (resolveAll envC3 (["x1".data] ++ "x2".data :: [])).2) :=
  resolver_offline_fallback envC3 ["x1".data] [] "x2".data (by decide)
    ⟨"boom".data, by decide⟩

/-- C9 counterexample: the resolver union keeps BOTH lines although they share
the normalized key (algorithm + blob) — dedup is by exact line text, so the
claim's single-entry behaviour does not hold. -/
theorem resolveKeys_dedup_cex :
    resolveKeys [("alice".data, ["u1".data, "u2".data])] env9 "alice".data =
      .ok [keyLineA, keyLineB] ∧
    normalizeKey keyLineA = normalizeKey keyLineB ∧ keyLineA ≠ keyLineB := by decide

/-- C9 (amended). The resolver union deduplicates by EXACT raw line equality
(the Go set map is keyed by the full line): a successful result is
duplicate-free as a list of raw lines, and every entry originates from some
successfully resolved identity; two raw lines with the same algorithm and
blob but different trailing comments remain two distinct entries. -/
theorem resolveKeys_union_dedup (userMap : List (Str × List Str))
    (env : Str → UserEnv) (sshUsername : Str) (r : List Str)
    (h : resolveKeys userMap env sshUsername = .ok r) :
    r.Nodup ∧ ∀ k ∈ r, ∃ u ∈ getGitHubUsers userMap sshUsername, ∃ ks,
      resolveKeysForGitHubUser (env u) = .ok ks ∧ k ∈ ks := by
  simp only [resolveKeys] at h
  by_cases hb1 : sshUsername.isEmpty = true
  · rw [if_pos hb1] at h
    exact absurd h (by simp)
  · rw [if_neg hb1] at h
    by_cases hb2 : (getGitHubUsers userMap sshUsername).isEmpty = true
    · rw [if_pos hb2] at h
      exact absurd h (by simp)
    · rw [if_neg hb2] at h
      by_cases hcond : ((resolveAll env (getGitHubUsers userMap sshUsername)).1.isEmpty &&
          decide ((resolveAll env (getGitHubUsers userMap sshUsername)).2.length =
            (getGitHubUsers userMap sshUsername).length)) = true
      · rw [if_pos hcond] at h
        exact absurd h (by simp)
      · rw [if_neg hcond] at h
        have hr : r = (resolveAll env (getGitHubUsers userMap sshUsername)).1 := by
          have h2 := h
          simp at h2
          exact h2.symm
        subst hr
        constructor
        · exact resolveFold_nodup env _ ([], []) List.nodup_nil
        · intro k hk
          rcases resolveFold_keys_src env _ ([], []) k hk with h2 | h2
          · simp at h2
          · exact h2

/-- C9 witness: the amended dedup contract instantiated at env9 — the result
holds both comment-variants, is duplicate-free, and each line traces back to
its identity. -/
theorem resolveKeys_union_dedup_witness :
    ([keyLineA, keyLineB] : List Str).Nodup ∧
    ∀ k ∈ [keyLineA, keyLineB],
      ∃ u ∈ getGitHubUsers [("alice".data, ["u1".data, "u2".data])] "alice".data,
      ∃ ks, resolveKeysForGitHubUser (env9 u) = .ok ks ∧ k ∈ ks :=
  resolveKeys_union_dedup [("alice".data, ["u1".data, "u2".data])] env9
    "alice".data [keyLineA, keyLineB] (by decide)

/-! ## C4: FetchKeys retry policy -/

theorem fetchAux_succ (resp : Nat → Response) (fuel attempt done : Nat)
    (delays : List Nat) :
    fetchAux resp (fuel + 1) attempt done delays =
      (let delays2 := if attempt > 0 then delays ++ [attempt] else delays
       match fetchKeysOnce (resp attempt) with
       | .ok keys => ⟨.ok keys, done + 1, delays2⟩
       | .error (.http code) =>
         if code = 404 then ⟨.error .userNotFound, done + 1, delays2⟩
         else if 500 ≤ code ∧ attempt < MaxRetries then
           fetchAux resp fuel (attempt + 1) (done + 1) delays2
         else ⟨.error (.terminal (.http code)), done + 1, delays2⟩
       | .error .net =>
         if attempt < MaxRetries then fetchAux resp fuel (attempt + 1) (done + 1) delays2
         else ⟨.error (.exhausted .net), done + 1, delays2⟩
       | .error (.parse e) =>
         if attempt < MaxRetries then fetchAux resp fuel (attempt + 1) (done + 1) delays2
         else ⟨.error (.exhausted (.parse e)), done + 1, delays2⟩) := rfl

theorem range'_one_concat (n : Nat) :
    List.range' 1 (n + 1) = List.range' 1 n ++ [n + 1] := by
  have h := List.range'_append_1 1 n 1
  have h2 : List.range' (1 + n) 1 = [1 + n] := rfl
  rw [h2, Nat.add_comm 1 n] at h
  exact h.symm

theorem fetchAux_succ_ok (resp : Nat → Response) (fuel attempt done : Nat)
    (delays : List Nat) (keys : List Str)
    (h : fetchKeysOnce (resp attempt) = .ok keys) :
    fetchAux resp (fuel + 1) attempt done delays =
      ⟨.ok keys, done + 1, if attempt > 0 then delays ++ [attempt] else delays⟩ := by
  have h2 := fetchAux_succ resp fuel attempt done delays
  rw [h] at h2
  exact h2

theorem fetchAux_succ_http (resp : Nat → Response) (fuel attempt done : Nat)
    (delays : List Nat) (code : Nat)
    (h : fetchKeysOnce (resp attempt) = .error (.http code)) :
    fetchAux resp (fuel + 1) attempt done delays =
      (if code = 404 then
        ⟨.error .userNotFound, done + 1,
          if attempt > 0 then delays ++ [attempt] else delays⟩
       else if 500 ≤ code ∧ attempt < MaxRetries then
         fetchAux resp fuel (attempt + 1) (done + 1)
           (if attempt > 0 then delays ++ [attempt] else delays)
       else ⟨.error (.terminal (.http code)), done + 1,
         if attempt > 0 then delays ++ [attempt] else delays⟩) := by
  have h2 := fetchAux_succ resp fuel attempt done delays
  rw [h] at h2
  exact h2

theorem fetchAux_succ_net (resp : Nat → Response) (fuel attempt done : Nat)
    (delays : List Nat)
    (h : fetchKeysOnce (resp attempt) = .error .net) :
    fetchAux resp (fuel + 1) attempt done delays =
      (if attempt < MaxRetries then
        fetchAux resp fuel (attempt + 1) (done + 1)
          (if attempt > 0 then delays ++ [attempt] else delays)
       else ⟨.error (.exhausted .net), done + 1,
         if attempt > 0 then delays ++ [attempt] else delays⟩) := by
  have h2 := fetchAux_succ resp fuel attempt done delays
  rw [h] at h2
  exact h2

theorem fetchAux_succ_parse (resp : Nat → Response) (fuel attempt done : Nat)
    (delays : List Nat) (pe : ParseErr)
    (h : fetchKeysOnce (resp attempt) = .error (.parse pe)) :
    fetchAux resp (fuel + 1) attempt done delays =
      (if attempt < MaxRetries then
        fetchAux resp fuel (attempt + 1) (done + 1)
          (if attempt > 0 then delays ++ [attempt] else delays)
       else ⟨.error (.exhausted (.parse pe)), done + 1,
         if attempt > 0 then delays ++ [attempt] else delays⟩) := by
  have h2 := fetchAux_succ resp fuel attempt done delays
  rw [h] at h2
  exact h2

theorem fetchAux_delays_inv (resp : Nat → Response) (fuel : Nat) :
    ∀ attempt done delays, done = attempt →
    delays = List.range' 1 (attempt - 1) →
    (fetchAux resp fuel attempt done delays).delays =
      List.range' 1 ((fetchAux resp fuel attempt done delays).attempts - 1) := by
  induction fuel with
  | zero =>
    intro attempt done delays hd hdel
    simp only [fetchAux]
    rw [hdel, hd]
  | succ fuel ih =>
    intro attempt done delays hd hdel
    have hdel2 : (if attempt > 0 then delays ++ [attempt] else delays) =
        List.range' 1 attempt := by
      by_cases h0 : attempt > 0
      · rw [if_pos h0, hdel]
        have h1 : attempt = (attempt - 1) + 1 := by omega
        conv_rhs => rw [h1]
        rw [range'_one_concat]
        have h2 : attempt - 1 + 1 = attempt := by omega
        rw [h2]
      · rw [if_neg h0]
        have h1 : attempt = 0 := by omega
        rw [hdel, h1]
    cases hres : fetchKeysOnce (resp attempt) with
    | ok keys =>
      rw [fetchAux_succ_ok resp fuel attempt done delays keys hres, hdel2]
      simp [hd]
    | error e =>
      cases e with
      | http code =>
        rw [fetchAux_succ_http resp fuel attempt done delays code hres, hdel2]
        by_cases h404 : code = 404
        · rw [if_pos h404]
          simp [hd]
        · rw [if_neg h404]
          by_cases h5 : 500 ≤ code ∧ attempt < MaxRetries
          · rw [if_pos h5]
            exact ih (attempt + 1) (done + 1) _ (by omega) (by simp)
          · rw [if_neg h5]
            simp [hd]
      | net =>
        rw [fetchAux_succ_net resp fuel attempt done delays hres, hdel2]
        by_cases hlt : attempt < MaxRetries
        · rw [if_pos hlt]
          exact ih (attempt + 1) (done + 1) _ (by omega) (by simp)
        · rw [if_neg hlt]
          simp [hd]
      | parse pe =>
        rw [fetchAux_succ_parse resp fuel attempt done delays pe hres, hdel2]
        by_cases hlt : attempt < MaxRetries
        · rw [if_pos hlt]
          exact ih (attempt + 1) (done + 1) _ (by omega) (by simp)
        · rw [if_neg hlt]
          simp [hd]

/-- C4 (amended). Retry behaviour of FetchKeys: two server errors followed by
a parseable 200 succeed using exactly three attempts with retry delays of one
and two units of RetryDelay; a 404 makes exactly one attempt and returns the
not-found error; any other non-200 client error makes exactly one attempt and
returns that error; transport failures are retried up to MaxRetries and then
the last error is returned wrapped, after MaxRetries + 1 attempts with
linearly growing delays; and in every execution the recorded delays are
RetryDelay multiples 1, 2, ... attempts-1 (linear in the attempt number). -/
theorem fetchKeys_retry_policy (u : Str) (hu : u ≠ []) (resp : Nat → Response) :
    (∀ c0 c1 body keys, 500 ≤ c0 → 500 ≤ c1 →
      resp 0 = .status c0 → resp 1 = .status c1 → resp 2 = .ok body →
      parseKeys body = .ok keys →
      fetchKeys u resp = ⟨.ok keys, 3, [1, 2]⟩) ∧
    (resp 0 = .status 404 → fetchKeys u resp = ⟨.error .userNotFound, 1, []⟩) ∧
    (∀ c, resp 0 = .status c → c ≠ 404 → c < 500 →
      fetchKeys u resp = ⟨.error (.terminal (.http c)), 1, []⟩) ∧
    ((∀ n, n ≤ MaxRetries → resp n = .netFail) →
      fetchKeys u resp = ⟨.error (.exhausted .net), MaxRetries + 1, [1, 2, 3]⟩) ∧
    (∀ t, fetchKeys u resp = t → t.delays = List.range' 1 (t.attempts - 1)) := by
  have hb : u.isEmpty = false := by
    cases h : u.isEmpty
    · rfl
    · exact absurd (List.isEmpty_iff.mp h) hu
  refine ⟨?_, ?_, ?_, ?_, ?_⟩
  · intro c0 c1 body keys hc0 hc1 h0 h1 h2 hp
    have hh0 : fetchKeysOnce (resp 0) = .error (.http c0) := by
      rw [h0]
      rfl
    have hh1 : fetchKeysOnce (resp 1) = .error (.http c1) := by
      rw [h1]
      rfl
    have hh2 : fetchKeysOnce (resp 2) = .ok keys := by
      rw [h2]
      simp [fetchKeysOnce, hp]
    unfold fetchKeys
    simp only [hb, Bool.false_eq_true, if_false]
    rw [fetchAux_succ_http resp MaxRetries 0 0 [] c0 hh0]
    rw [if_neg (by omega), if_pos ⟨hc0, by decide⟩]
    show fetchAux resp (2 + 1) 1 1 [] = _
    rw [fetchAux_succ_http resp 2 1 1 [] c1 hh1]
    rw [if_neg (by omega), if_pos ⟨hc1, by decide⟩]
    show fetchAux resp (1 + 1) 2 2 [1] = _
    rw [fetchAux_succ_ok resp 1 2 2 [1] keys hh2]
    rfl
  · intro h0
    have hh0 : fetchKeysOnce (resp 0) = .error (.http 404) := by
      rw [h0]
      rfl
    unfold fetchKeys
    simp only [hb, Bool.false_eq_true, if_false]
    rw [fetchAux_succ_http resp MaxRetries 0 0 [] 404 hh0]
    rw [if_pos rfl]
    rfl
  · intro c h0 h404 h500
    have hh0 : fetchKeysOnce (resp 0) = .error (.http c) := by
      rw [h0]
      rfl
    unfold fetchKeys
    simp only [hb, Bool.false_eq_true, if_false]
    rw [fetchAux_succ_http resp MaxRetries 0 0 [] c hh0]
    rw [if_neg h404, if_neg (by
      rintro ⟨ha, _⟩
      omega)]
    rfl
  · intro hall
    have hh : ∀ n, n ≤ MaxRetries → fetchKeysOnce (resp n) = .error .net := by
      intro n hn
      rw [hall n hn]
      rfl
    unfold fetchKeys
    simp only [hb, Bool.false_eq_true, if_false]
    rw [fetchAux_succ_net resp MaxRetries 0 0 [] (hh 0 (by decide))]
    rw [if_pos (by decide)]
    show fetchAux resp (2 + 1) 1 1 [] = _
    rw [fetchAux_succ_net resp 2 1 1 [] (hh 1 (by decide))]
    rw [if_pos (by decide)]
    show fetchAux resp (1 + 1) 2 2 [1] = _
    rw [fetchAux_succ_net resp 1 2 2 [1] (hh 2 (by decide))]
    rw [if_pos (by decide)]
    show fetchAux resp (0 + 1) 3 3 [1, 2] = _
    rw [fetchAux_succ_net resp 0 3 3 [1, 2] (hh 3 (by decide))]
    rw [if_neg (by decide)]
    rfl
  · intro t ht
    rw [← ht]
    unfold fetchKeys
    simp only [hb, Bool.false_eq_true, if_false]
    exact fetchAux_delays_inv resp (MaxRetries + 1) 0 0 [] rfl rfl

/-- C4 counterexample to the claim as stated: a 200 response whose body fails
to parse is neither a server error nor a transport failure, yet FetchKeys
retries it — four attempts are made instead of returning immediately after
one. -/
theorem fetchKeys_parse_retry_cex :
    fetchKeysOnce (respParseFail 0) = .error (.parse (.noValidKeys 1)) ∧
    (fetchKeys "u".data respParseFail).attempts = 4 ∧
    (fetchKeys "u".data respParseFail).attempts ≠ 1 := by decide

/-- C4 witness: the retry-policy theorem instantiated at the always-404
oracle — exactly one attempt, not-found error, no delays. -/
theorem fetchKeys_retry_policy_witness :
    fetchKeys "u".data resp404 = ⟨.error .userNotFound, 1, []⟩ :=
  (fetchKeys_retry_policy "u".data (by decide) resp404).2.1 rfl
